import Mathlib

/-!
Verification development for the Dex MCP server's contact-matching and
full-text-search subsystem.

The TypeScript source is shallowly embedded: strings are Lean `String`s
(manipulated through their underlying `List Char`), JS numbers used for
confidences/timestamps are `ℤ`, fuzzy-engine scores (JS floats in `[0,1]`)
are `ℚ`, and the third-party fuzzy-search engine (Fuse.js) is an explicit
function parameter, since its internals are not part of this repository.
JS `toLowerCase`/`trim`/`\s`/`\d` are modelled on the ASCII range (plus
NBSP for whitespace); Unicode-only behaviour is out of scope.
-/

namespace DexMcp

/-- Model of JS `String.prototype.toLowerCase` on one character
(ASCII range: `A`–`Z` map to `a`–`z`, everything else is unchanged). -/
def charToLower (c : Char) : Char :=
  if 65 ≤ c.toNat ∧ c.toNat ≤ 90 then Char.ofNat (c.toNat + 32) else c

/-- Whitespace class of JS `trim` / `\s` (ASCII whitespace plus NBSP). -/
def jsWhitespace (c : Char) : Bool :=
  decide (c.toNat = 32 ∨ c.toNat = 9 ∨ c.toNat = 10 ∨ c.toNat = 13 ∨
    c.toNat = 11 ∨ c.toNat = 12 ∨ c.toNat = 160)

/-- Digit class of JS `\d` (`0`–`9`). -/
def jsDigit (c : Char) : Bool :=
  decide (48 ≤ c.toNat ∧ c.toNat ≤ 57)

/-- `toLowerCase` on a character list. -/
def lowerL (l : List Char) : List Char := l.map charToLower

/-- Left half of JS `trim`. -/
def trimLeftL (l : List Char) : List Char := l.dropWhile jsWhitespace

/-- Right half of JS `trim`. -/
def trimRightL (l : List Char) : List Char :=
  (l.reverse.dropWhile jsWhitespace).reverse

/-- JS `String.prototype.trim` on a character list. -/
def trimL (l : List Char) : List Char := trimRightL (trimLeftL l)

/-!  ## Normalizer (src/matching/fuzzy-matcher.ts)  -/

/-- `ContactMatcher.normalizeEmail`: `email.toLowerCase().trim()`. -/
def normalizeEmail (s : String) : String := ⟨trimL (lowerL s.data)⟩

/-- `ContactMatcher.normalizePhone`: strip all non-digits
(`phone.replace(/\D/g, '')`); if more than 10 digits remain, keep the
last 10 (`digits.slice(-10)`). -/
def normalizePhone (s : String) : String :=
  let digits := s.data.filter jsDigit
  if 10 < digits.length then ⟨digits.drop (digits.length - 10)⟩ else ⟨digits⟩

/-- Case-insensitive prefix matcher: if `pat` (given in lowercase) is a
prefix of `s` up to JS `/i` folding, return the rest of `s`. -/
def ciPrefixRest : List Char → List Char → Option (List Char)
  | [], s => some s
  | _ :: _, [] => none
  | p :: ps, c :: cs => if charToLower c = p then ciPrefixRest ps cs else none

/-- Character class `[^\/\?]` used by both capture groups. -/
def notSlashQuery (c : Char) : Bool := decide (c ≠ '/' ∧ c ≠ '?')

/-- One regex-engine position: try each alternative pattern in order; an
alternative succeeds when its literal part matches here and the following
`[^\/\?]+` capture is non-empty. -/
def tryPatterns : List (List Char) → List Char → Option (List Char)
  | [], _ => none
  | p :: ps, s =>
    match ciPrefixRest p s with
    | some rem =>
      let cap := rem.takeWhile notSlashQuery
      if cap.isEmpty then tryPatterns ps s else some cap
    | none => tryPatterns ps s

/-- Model of `url.match(/<pat1|pat2|...>\.com\/([^\/\?]+)/i)`: scan
positions left to right, returning the first capture. -/
def scanCapture (pats : List (List Char)) : List Char → Option (List Char)
  | [] => none
  | c :: rest =>
    match tryPatterns pats (c :: rest) with
    | some cap => some cap
    | none => scanCapture pats rest

/-- Model of the JS `URL` constructor, reduced to what `normalizeUrl`
consumes (`hostname`, `pathname`). Parses `scheme://[userinfo@]host[:port]`
followed by a path; returns `none` when there is no `scheme://` or the
host is empty (where the real constructor throws). Percent-encoding,
IDNA, and scheme-specific quirks are not modelled; no theorem below
depends on the `some` branch. -/
def jsUrlParse (l : List Char) : Option (List Char × List Char) :=
  let isAlpha : Char → Bool := fun c =>
    decide ((65 ≤ c.toNat ∧ c.toNat ≤ 90) ∨ (97 ≤ c.toNat ∧ c.toNat ≤ 122))
  let isSchemeChar : Char → Bool := fun c =>
    isAlpha c || jsDigit c || decide (c = '+' ∨ c = '-' ∨ c = '.')
  match l with
  | [] => none
  | c :: rest =>
    if isAlpha c then
      let afterScheme := rest.dropWhile isSchemeChar
      match afterScheme with
      | ':' :: '/' :: '/' :: tail =>
        let isAuthEnd : Char → Bool := fun c =>
          decide (c = '/' ∨ c = '?' ∨ c = '#')
        let authority := tail.takeWhile (fun c => !isAuthEnd c)
        let afterAuth := tail.dropWhile (fun c => !isAuthEnd c)
        let hostPort :=
          if authority.contains '@' then
            (authority.reverse.takeWhile (fun c => c ≠ '@')).reverse
          else authority
        let host := hostPort.takeWhile (fun c => c ≠ ':')
        if host.isEmpty then none
        else
          let path :=
            match afterAuth with
            | '/' :: _ => afterAuth.takeWhile (fun c => !decide (c = '?' ∨ c = '#'))
            | _ => ['/']
          some (host, path)
      | _ => none
    else none

/-- Strip a single trailing `'/'`: JS `.replace(/\/$/, '')`. -/
def stripTrailingSlash (l : List Char) : List Char :=
  if l.getLast? = some '/' then l.dropLast else l

/-- Strip one leading `http://` or `https://`: JS `.replace(/^https?:\/\//, '')`. -/
def stripLeadingHttp (l : List Char) : List Char :=
  if ("https://".data).isPrefixOf l then l.drop 8
  else if ("http://".data).isPrefixOf l then l.drop 7
  else l

/-- Strip one leading `'@'`: JS `.replace(/^@/, '')`. -/
def stripLeadingAt (l : List Char) : List Char :=
  match l with
  | '@' :: rest => rest
  | _ => l

/-- `ContactMatcher.normalizeUrl`: LinkedIn capture, then other social
platforms, then URL parsing (`hostname + pathname` lowercased, one
trailing slash removed), then the best-effort string fallback. -/
def normalizeUrl (s : String) : String :=
  match scanCapture ["linkedin.com/in/".data] s.data with
  | some cap => ⟨trimL (lowerL cap)⟩
  | none =>
    match scanCapture
        ["facebook.com/".data, "twitter.com/".data,
         "instagram.com/".data, "telegram.com/".data] s.data with
    | some cap => ⟨trimL (lowerL cap)⟩
    | none =>
      match jsUrlParse s.data with
      | some (host, path) =>
        ⟨lowerL host ++ stripTrailingSlash (lowerL path)⟩
      | none =>
        ⟨stripLeadingAt (stripLeadingHttp (stripTrailingSlash (trimL (lowerL s.data))))⟩

/-!  ## Data model (src/types.ts)

Only the fields consulted by the matching/search code are modelled; a
missing optional array (`emails?`, `phones?`) is represented as `[]`,
which the source treats identically (its `Array.isArray` guard then
finds nothing to match). -/

structure EmailEntry where
  email : String
deriving DecidableEq

structure PhoneEntry where
  phone_number : String
  label : Option String := none
deriving DecidableEq

structure DexContact where
  id : String
  first_name : String
  last_name : String
  job_title : Option String := none
  description : Option String := none
  emails : List EmailEntry := []
  phones : List PhoneEntry := []
  linkedin : Option String := none
  facebook : Option String := none
  twitter : Option String := none
  instagram : Option String := none
  telegram : Option String := none
deriving DecidableEq

structure ContactMatch where
  contact : DexContact
  confidence : ℤ
  match_reason : String
deriving DecidableEq

structure SearchParams where
  name : Option String := none
  email : Option String := none
  phone : Option String := none
  social_url : Option String := none
  company : Option String := none
deriving DecidableEq

/-- JS truthiness of an optional string parameter: present and non-empty. -/
def optTruthy : Option String → Bool
  | none => false
  | some s => decide (s ≠ "")

/-!  ## Contact Matcher (src/matching/fuzzy-matcher.ts)  -/

/-- `ContactMatcher.findByEmail`: one confidence-100 match per contact
having some email whose normalized form equals the normalized query
(the inner loop `break`s after the first hit, so at most one match per
contact). -/
def findByEmail (contacts : List DexContact) (email : String) : List ContactMatch :=
  let normalized := normalizeEmail email
  contacts.filterMap fun c =>
    if c.emails.any (fun e => normalizeEmail e.email = normalized) then
      some ⟨c, 100, "Exact email match"⟩
    else none

/-- `ContactMatcher.findByPhone`. -/
def findByPhone (contacts : List DexContact) (phone : String) : List ContactMatch :=
  let normalized := normalizePhone phone
  contacts.filterMap fun c =>
    if c.phones.any (fun p => normalizePhone p.phone_number = normalized) then
      some ⟨c, 100, "Exact phone match"⟩
    else none

/-- The five social-profile fields, with absent and empty values removed
(`[...].filter(Boolean)`). -/
def socialUrls (c : DexContact) : List String :=
  ([c.linkedin, c.facebook, c.twitter, c.instagram, c.telegram].filterMap id).filter
    fun s => decide (s ≠ "")

/-- `ContactMatcher.findBySocialUrl`. -/
def findBySocialUrl (contacts : List DexContact) (url : String) : List ContactMatch :=
  let normalized := normalizeUrl url
  contacts.filterMap fun c =>
    if (socialUrls c).any (fun u => normalizeUrl u = normalized) then
      some ⟨c, 100, "Exact social profile match"⟩
    else none

/-- A contact together with the synthesized `full_name` field that
`findByName` adds before handing the collection to Fuse.js. -/
structure SearchableContact where
  contact : DexContact
  full_name : String
deriving DecidableEq

/-- `` `${contact.first_name} ${contact.last_name}`.trim() ``. -/
def mkSearchable (c : DexContact) : SearchableContact :=
  ⟨c, ⟨trimL (c.first_name.data ++ ' ' :: c.last_name.data)⟩⟩

/-- The Fuse.js engine, abstracted: given the searchable contacts and a
query it returns scored candidates (score `0` = perfect … `1` = worst,
per the library contract). The engine is a parameter because its
internals are a third-party dependency, not code of this repository. -/
def FuseEngine : Type :=
  List SearchableContact → String → List (SearchableContact × ℚ)

/-- `ContactMatcher.fuseScoreToConfidence`: `Math.max(0, (1 - score) * 100)`. -/
def fuseScoreToConfidence (score : ℚ) : ℚ := max 0 ((1 - score) * 100)

/-- JS `Math.round`. -/
def jsRound (q : ℚ) : ℤ := ⌊q + 1 / 2⌋

/-- JS `str.split(/\s+/)`: split on maximal whitespace runs, keeping an
empty piece at either border when the string starts/ends with whitespace
(and `[""]` for the empty string), exactly as the JS `split` does. -/
def splitWS (l : List Char) : List (List Char) :=
  match h : l.dropWhile (fun c => !jsWhitespace c) with
  | [] => [l.takeWhile (fun c => !jsWhitespace c)]
  | _ :: rest =>
    l.takeWhile (fun c => !jsWhitespace c) :: splitWS (rest.dropWhile jsWhitespace)
termination_by l.length
decreasing_by
  have h1 : (l.dropWhile (fun c => !jsWhitespace c)).length ≤ l.length :=
    (List.dropWhile_suffix _).sublist.length_le
  rw [h] at h1
  have h2 : (rest.dropWhile jsWhitespace).length ≤ rest.length :=
    (List.dropWhile_suffix _).sublist.length_le
  simp at h1
  omega

/-- JS `String.prototype.toLowerCase`. -/
def jsLower (s : String) : String := ⟨lowerL s.data⟩

/-- `ContactMatcher.compareStrings`: Jaccard similarity of the two
whitespace-split word sets. -/
def compareStrings (s1 s2 : String) : ℚ :=
  let words1 := (splitWS s1.data).dedup
  let words2 := (splitWS s2.data).dedup
  let inter := words1.filter fun w => words2.contains w
  let union := (words1 ++ words2).dedup
  (inter.length : ℚ) / (union.length : ℚ)

/-- The body of `findByName`'s result loop: base confidence from the Fuse
score, plus the company/job-title boost (`+15` capped at `100`, reason
`"Name and company match"`) when a truthy `company` and truthy
`job_title` have word-set similarity `> 0.8`. -/
def scoreCandidate (company : Option String) (item : SearchableContact)
    (score : ℚ) : ℚ × String :=
  let confidence := fuseScoreToConfidence score
  match company, item.contact.job_title with
  | some comp, some jt =>
    if comp ≠ "" ∧ jt ≠ "" ∧ (8 : ℚ) / 10 < compareStrings (jsLower comp) (jsLower jt) then
      (min 100 (confidence + 15), "Name and company match")
    else (confidence, "Name fuzzy match")
  | _, _ => (confidence, "Name fuzzy match")

/-- `ContactMatcher.findByName`: run the engine over the searchable
contacts, score each candidate, round, and keep those with confidence
at least 60. -/
def findByName (engine : FuseEngine) (contacts : List DexContact)
    (name : String) (company : Option String) : List ContactMatch :=
  (engine (contacts.map mkSearchable) name).filterMap fun r =>
    if 60 ≤ (scoreCandidate company r.1 r.2).1 then
      some ⟨r.1.contact, jsRound (scoreCandidate company r.1 r.2).1,
            (scoreCandidate company r.1 r.2).2⟩
    else none

/-- `ContactMatcher.deduplicateMatches`'s loop with its `seen` set. -/
def dedupAux (seen : List String) : List ContactMatch → List ContactMatch
  | [] => []
  | m :: t =>
    if seen.contains m.contact.id then dedupAux seen t
    else m :: dedupAux (m.contact.id :: seen) t

/-- `ContactMatcher.deduplicateMatches`: keep the first occurrence of
each contact id. -/
def deduplicateMatches (ms : List ContactMatch) : List ContactMatch :=
  dedupAux [] ms

/-- Stable insertion (descending by `conf`): `x` is placed before the
first element whose key is strictly below its own, so elements that
compare equal keep their original relative order — exactly what the JS
stable `Array.prototype.sort` with `(a, b) => b.confidence - a.confidence`
produces. -/
def insertByConf {α : Type} (conf : α → ℤ) (x : α) : List α → List α
  | [] => [x]
  | a :: t => if conf x < conf a then a :: insertByConf conf x t else x :: a :: t

/-- Stable sort, descending by `conf` (the unique stable order, hence
equal to the JS sort's output). -/
def sortByConfDesc {α : Type} (conf : α → ℤ) : List α → List α
  | [] => []
  | a :: t => insertByConf conf a (sortByConfDesc conf t)

/-- `ContactMatcher.sortAndLimitMatches`: stable sort by confidence
descending, top 5. -/
def sortAndLimitMatches (ms : List ContactMatch) : List ContactMatch :=
  (sortByConfDesc (fun m => m.confidence) ms).take 5

/-- The exact-identifier phase of `findMatches`: email, phone, then
social-URL hits, in that order, each axis queried only when its
parameter is truthy. -/
def exactMatches (contacts : List DexContact) (params : SearchParams) :
    List ContactMatch :=
  (match params.email with
   | some e => if e ≠ "" then findByEmail contacts e else []
   | none => []) ++
  (match params.phone with
   | some p => if p ≠ "" then findByPhone contacts p else []
   | none => []) ++
  (match params.social_url with
   | some u => if u ≠ "" then findBySocialUrl contacts u else []
   | none => [])

/-- `ContactMatcher.findMatches`: if any exact-identifier hit exists,
return the deduplicated exact hits; otherwise run fuzzy name matching
(when a truthy name is given) and sort/limit. -/
def findMatches (engine : FuseEngine) (contacts : List DexContact)
    (params : SearchParams) : List ContactMatch :=
  if exactMatches contacts params ≠ [] then
    deduplicateMatches (exactMatches contacts params)
  else
    match params.name with
    | some n =>
      if n ≠ "" then sortAndLimitMatches (findByName engine contacts n params.company)
      else sortAndLimitMatches []
    | none => sortAndLimitMatches []

/-!  ## Full-Text Search Index (FullTextSearchIndex)  -/

structure DexNote where
  id : String
  note : String
  event_time : String
  contacts : List String
deriving DecidableEq

structure DexReminder where
  id : String
  body : String
  is_complete : Bool
  due_at_date : String
  contact_ids : List String
deriving DecidableEq

inductive DocType
  | contact
  | note
  | reminder
deriving DecidableEq

def docTypeStr : DocType → String
  | .contact => "contact"
  | .note => "note"
  | .reminder => "reminder"

structure DocMetadata where
  field : Option String := none
  date : Option String := none
  rawContent : Option String := none
deriving DecidableEq

structure SearchableDocument where
  contactId : String
  documentType : DocType
  documentId : String
  searchableText : String
  metadata : DocMetadata
deriving DecidableEq

/-- `FullTextSearchIndex.extractContactDocuments`. -/
def extractContactDocuments (c : DexContact) : List SearchableDocument :=
  (if c.first_name ≠ "" ∨ c.last_name ≠ "" then
    [{ contactId := c.id, documentType := .contact, documentId := c.id,
       searchableText := ⟨trimL (c.first_name.data ++ ' ' :: c.last_name.data)⟩,
       metadata := { field := some "name" } }]
   else []) ++
  (match c.job_title with
   | some jt =>
     if jt ≠ "" then
       [{ contactId := c.id, documentType := .contact, documentId := c.id,
          searchableText := jt, metadata := { field := some "job_title" } }]
     else []
   | none => []) ++
  (match c.description with
   | some d =>
     if d ≠ "" then
       [{ contactId := c.id, documentType := .contact, documentId := c.id,
          searchableText := d, metadata := { field := some "description" } }]
     else []
   | none => []) ++
  c.emails.map (fun e =>
    { contactId := c.id, documentType := .contact, documentId := c.id,
      searchableText := e.email, metadata := { field := some "email" } }) ++
  c.phones.map (fun p =>
    { contactId := c.id, documentType := .contact, documentId := c.id,
      searchableText := ⟨trimL (p.phone_number.data ++ ' ' :: (p.label.getD "").data)⟩,
      metadata := { field := some "phone" } })

/-- Global regex replacement: scan left to right; at each position the
`matcher` reports how many characters the pattern consumes (always at
least 1 for the patterns below), which are replaced by `rep`. -/
def replaceScan (matcher : List Char → Option ℕ) (rep : List Char) :
    List Char → List Char
  | [] => []
  | c :: t =>
    match matcher (c :: t) with
    | some n => rep ++ replaceScan matcher rep (t.drop (n - 1))
    | none => c :: replaceScan matcher rep t
termination_by l => l.length
decreasing_by
  all_goals simp only [List.length_drop, List.length_cons]
  all_goals omega

/-- Matcher for `/<br\s*\/?>/gi`. -/
def brMatcher (l : List Char) : Option ℕ :=
  match ciPrefixRest "<br".data l with
  | none => none
  | some rest =>
    let ws := rest.takeWhile jsWhitespace
    match rest.drop ws.length with
    | '/' :: '>' :: _ => some (3 + ws.length + 2)
    | '>' :: _ => some (3 + ws.length + 1)
    | _ => none

/-- Matcher for `/<\/p>/gi`. -/
def pCloseMatcher (l : List Char) : Option ℕ :=
  match ciPrefixRest "</p>".data l with
  | none => none
  | some _ => some 4

/-- Matcher for `/<[^>]+>/g`. -/
def tagMatcher (l : List Char) : Option ℕ :=
  match l with
  | '<' :: rest =>
    let inner := rest.takeWhile (fun c => c ≠ '>')
    if inner.isEmpty then none
    else
      match rest.drop inner.length with
      | '>' :: _ => some (inner.length + 2)
      | _ => none
  | _ => none

/-- Matcher for `/\s+/g`. -/
def wsRunMatcher (l : List Char) : Option ℕ :=
  let run := l.takeWhile jsWhitespace
  if run.isEmpty then none else some run.length

/-- `FullTextSearchIndex.stripHtml`: line-break and closing-paragraph
tags become newlines, remaining tags become spaces, whitespace collapses,
then trim. -/
def stripHtml (s : String) : String :=
  let step1 := replaceScan brMatcher ['\n'] s.data
  let step2 := replaceScan pCloseMatcher ['\n'] step1
  let step3 := replaceScan tagMatcher [' '] step2
  let step4 := replaceScan wsRunMatcher [' '] step3
  ⟨trimL step4⟩

/-- `FullTextSearchIndex.extractNoteDocuments`: one document per
associated contact id, sharing the markup-stripped text. -/
def extractNoteDocuments (n : DexNote) : List SearchableDocument :=
  let plainText := stripHtml n.note
  n.contacts.map fun cid =>
    { contactId := cid, documentType := .note, documentId := n.id,
      searchableText := plainText,
      metadata := { date := some n.event_time, rawContent := some n.note } }

/-- `FullTextSearchIndex.extractReminderDocuments`. -/
def extractReminderDocuments (r : DexReminder) : List SearchableDocument :=
  let status := if r.is_complete then "completed" else "pending"
  r.contact_ids.map fun cid =>
    { contactId := cid, documentType := .reminder, documentId := r.id,
      searchableText := r.body ++ " " ++ status,
      metadata := { date := some r.due_at_date, rawContent := some r.body } }

/-- JS `Map.prototype.set`: update in place (preserving insertion order)
or append. -/
def jsMapSet {β : Type} (m : List (String × β)) (k : String) (v : β) :
    List (String × β) :=
  match m with
  | [] => [(k, v)]
  | (k', v') :: t => if k' = k then (k, v) :: t else (k', v') :: jsMapSet t k v

/-- JS `Map.prototype.get`. -/
def jsMapGet {β : Type} (m : List (String × β)) (k : String) : Option β :=
  match m with
  | [] => none
  | (k', v) :: t => if k' = k then some v else jsMapGet t k

/-- The remote CRM client, modelled as the data it serves: `getContacts`
pages through `contacts` with `(limit, offset)` slices, `getNotes` and
`getReminders` return everything. -/
structure DexClientModel where
  contacts : List DexContact
  notes : List DexNote
  reminders : List DexReminder
deriving DecidableEq

/-- One collaborator fetch performed during a refresh. -/
inductive FetchCall
  | getContacts (limit offset : ℕ)
  | getNotes
  | getReminders
deriving DecidableEq

/-- `FullTextSearchIndex.loadAllContacts`'s fetch-until-short-page loop,
with enough fuel to cover the store; also records the fetches issued. -/
def loadAllContactsAux (store : List DexContact) :
    ℕ → ℕ → List DexContact × List FetchCall
  | 0, _ => ([], [])
  | fuel + 1, offset =>
    let batch := (store.drop offset).take 100
    if batch.length < 100 then (batch, [.getContacts 100 offset])
    else
      let rest := loadAllContactsAux store fuel (offset + 100)
      (batch ++ rest.1, .getContacts 100 offset :: rest.2)

def loadAllContacts (store : List DexContact) :
    List DexContact × List FetchCall :=
  loadAllContactsAux store (store.length + 1) 0

/-- The mutable state of a `FullTextSearchIndex`: document list, contact
map, the documents the Fuse index was (re)built from, last-refresh
timestamp, and TTL in milliseconds. -/
structure IndexState where
  documents : List SearchableDocument
  contactsMap : List (String × DexContact)
  fuseDocs : List SearchableDocument
  lastRefresh : ℤ
  cacheTTL : ℤ
deriving DecidableEq

/-- The constructor `new FullTextSearchIndex(cacheTTLMinutes = 30)`. -/
def mkIndex (cacheTTLMinutes : ℤ := 30) : IndexState :=
  { documents := [], contactsMap := [], fuseDocs := [], lastRefresh := 0,
    cacheTTL := cacheTTLMinutes * 60 * 1000 }

/-- `FullTextSearchIndex.refreshIndex`: a no-op inside the TTL window
(`lastRefresh` truthy and `now - lastRefresh < cacheTTL`); otherwise
load all contacts (paginated), all notes, and all reminders, fold the
contacts into the existing contact map, rebuild the document list and
Fuse index from scratch, and stamp `lastRefresh = now`. The second
component records the collaborator fetches performed.

The document list a full refresh builds (`refreshDocs`): contact
documents in load order, then note documents, then reminder documents. -/
def refreshDocs (client : DexClientModel) : List SearchableDocument :=
  (loadAllContacts client.contacts).1.flatMap extractContactDocuments
    ++ client.notes.flatMap extractNoteDocuments
    ++ client.reminders.flatMap extractReminderDocuments

def refreshIndex (st : IndexState) (client : DexClientModel) (now : ℤ) :
    IndexState × List FetchCall :=
  if st.lastRefresh ≠ 0 ∧ now - st.lastRefresh < st.cacheTTL then (st, [])
  else
    ({ documents := refreshDocs client,
       contactsMap :=
         (loadAllContacts client.contacts).1.foldl
           (fun m c => jsMapSet m c.id c) st.contactsMap,
       fuseDocs := refreshDocs client,
       lastRefresh := now, cacheTTL := st.cacheTTL },
     (loadAllContacts client.contacts).2 ++ [.getNotes, .getReminders])

/-- JS `text.substring(a, b)`: clamp both indices to the text length and
swap them if needed. -/
def jsSubstring (l : List Char) (a b : ℕ) : List Char :=
  (l.drop (min (min a l.length) (min b l.length))).take
    (max (min a l.length) (min b l.length) -
      min (min a l.length) (min b l.length))

/-- The `GetSubstitution` step of JS `String.prototype.replace`: expand
the escape sequences of the replacement string — `$$` to a dollar sign,
`$&` to the matched text, a dollar sign followed by a backquote
(code 96) to the part of the string before the match, `$'` (code 39) to
the part after it; any other `$` is literal. A string pattern has no
capture groups, so `$n` stays literal. -/
def getSubstitution (matched before after : List Char) : List Char → List Char
  | [] => []
  | c :: t =>
    if c = '$' then
      match t with
      | [] => ['$']
      | c2 :: t2 =>
        if c2 = '$' then '$' :: getSubstitution matched before after t2
        else if c2 = '&' then matched ++ getSubstitution matched before after t2
        else if c2.toNat = 96 then before ++ getSubstitution matched before after t2
        else if c2.toNat = 39 then after ++ getSubstitution matched before after t2
        else '$' :: c2 :: getSubstitution matched before after t2
    else c :: getSubstitution matched before after t

/-- JS `s.replace(pat, rep)` with a string pattern: splice the
`$`-substituted replacement in place of the first occurrence of `pat`,
carrying the prefix scanned so far (needed by the code-96 escape). -/
def jsReplaceFirstAux (pat rep : List Char) : List Char → List Char → List Char
  | pre, [] =>
    if pat.isEmpty then pre ++ getSubstitution pat pre [] rep else pre
  | pre, c :: t =>
    if pat.isPrefixOf (c :: t) then
      pre ++ getSubstitution pat pre ((c :: t).drop pat.length) rep ++
        (c :: t).drop pat.length
    else jsReplaceFirstAux pat rep (pre ++ [c]) t

def jsReplaceFirst (pat rep s : List Char) : List Char :=
  jsReplaceFirstAux pat rep [] s

/-- `FullTextSearchIndex.extractSnippet`, taking the first span
(`matches[0].indices[0]`, inclusive character indices) of the engine
match, when present. -/
def extractSnippet (text : String) (span : Option (ℕ × ℕ)) : String :=
  match span with
  | none =>
    ⟨jsSubstring text.data 0 150 ++
      (if 150 < text.data.length then "...".data else [])⟩
  | some (s, e) =>
    let len := text.data.length
    let snippetStart := s - 60
    let snippetEnd := min len (e + 60)
    let core := jsSubstring text.data snippetStart snippetEnd
    let withPre := (if 0 < snippetStart then "...".data else []) ++ core
    let withSuf := withPre ++ (if snippetEnd < len then "...".data else [])
    let matchText := jsSubstring text.data s (e + 1)
    ⟨jsReplaceFirst matchText ("**".data ++ matchText ++ "**".data) withSuf⟩

/-- One scored document returned by the Fuse engine for a query: the
document, its score, and the first index pair of its first match object
(the only part `extractSnippet` consumes), when any. -/
structure FuseMatchResult where
  doc : SearchableDocument
  score : ℚ
  span : Option (ℕ × ℕ)
deriving DecidableEq

structure SearchOptions where
  maxResults : Option ℤ := none
  minConfidence : Option ℤ := none
  documentTypes : Option (List DocType) := none
deriving DecidableEq

/-- JS `options?.x || default`: absent or `0` (falsy) falls back to the
default. -/
def orDefaultNum (o : Option ℤ) (d : ℤ) : ℤ :=
  match o with
  | none => d
  | some n => if n = 0 then d else n

structure MatchEntry where
  documentType : DocType
  field : String
  snippet : String
  fullContent : Option String
  score : ℤ
deriving DecidableEq

structure Bucket where
  contact : DexContact
  matchEntries : List MatchEntry
deriving DecidableEq

structure MatchContext where
  documentType : DocType
  field : String
  snippet : String
  fullContent : Option String
deriving DecidableEq

structure SearchResult where
  contact : DexContact
  confidence : ℤ
  matchContext : List MatchContext
deriving DecidableEq

/-- The match entry `search` pushes for one accepted engine result:
confidence rounded from the Fuse score, field name (falling back to the
document type when absent or empty), highlighted snippet, and the raw
content. -/
def mkMatchEntry (fr : FuseMatchResult) : MatchEntry :=
  { documentType := fr.doc.documentType,
    field := (match fr.doc.metadata.field with
              | some f => if f ≠ "" then f else docTypeStr fr.doc.documentType
              | none => docTypeStr fr.doc.documentType),
    snippet := extractSnippet fr.doc.searchableText fr.span,
    fullContent := fr.doc.metadata.rawContent,
    score := jsRound ((1 - fr.score) * 100) }

/-- The per-result body of `search`'s grouping loop: apply the
document-type filter, drop stale contact ids, compute the rounded
per-document confidence, apply the `minConfidence` cutoff, and append
the match entry to the contact's bucket. -/
def bucketStep (cmap : List (String × DexContact)) (minConfidence : ℤ)
    (docTypes : Option (List DocType)) (buckets : List (String × Bucket))
    (fr : FuseMatchResult) : List (String × Bucket) :=
  if (match docTypes with
      | some dts => !dts.contains fr.doc.documentType
      | none => false) then buckets
  else
    match jsMapGet cmap fr.doc.contactId with
    | none => buckets
    | some contact =>
      if jsRound ((1 - fr.score) * 100) < minConfidence then buckets
      else
        match jsMapGet buckets fr.doc.contactId with
        | some b =>
          jsMapSet buckets fr.doc.contactId
            { b with matchEntries := b.matchEntries ++ [mkMatchEntry fr] }
        | none =>
          jsMapSet buckets fr.doc.contactId
            { contact := contact, matchEntries := [mkMatchEntry fr] }

/-- `Math.max(...)` over a bucket's match confidences (buckets are never
empty by construction). -/
def maxScore : List ℤ → ℤ
  | [] => 0
  | a :: t => t.foldl max a

/-- The aggregation of step 3 of `search`:
`Math.min(100, highestConfidence + Math.min(matches.length * 2, 10))`. -/
def aggregateConfidence (scores : List ℤ) : ℤ :=
  min 100 (maxScore scores + min (2 * (scores.length : ℤ)) 10)

def mkSearchResult (b : Bucket) : SearchResult :=
  { contact := b.contact,
    confidence := aggregateConfidence (b.matchEntries.map (fun m => m.score)),
    matchContext := b.matchEntries.map (fun m =>
      ⟨m.documentType, m.field, m.snippet, m.fullContent⟩) }

/-- `FullTextSearchIndex.search`, parameterized by the Fuse results for
the query (`frs`): group per contact, aggregate, sort by confidence
descending, truncate to `maxResults`. A negative `maxResults` (JS
slice-from-end) is not modelled.

`searchBuckets` is step 2 of the algorithm: the contact buckets that
`search` accumulates by folding `bucketStep` over the engine results,
with the defaulted `minConfidence`. -/
def searchBuckets (cmap : List (String × DexContact))
    (frs : List FuseMatchResult) (opts : SearchOptions) :
    List (String × Bucket) :=
  frs.foldl (bucketStep cmap (orDefaultNum opts.minConfidence 50) opts.documentTypes) []

def search (cmap : List (String × DexContact)) (frs : List FuseMatchResult)
    (opts : SearchOptions) : List SearchResult :=
  (sortByConfDesc (fun r => r.confidence)
    ((searchBuckets cmap frs opts).map (fun kb => mkSearchResult kb.2))).take
    (orDefaultNum opts.maxResults 10).toNat

/-!  ## Contact discovery tool layer (src/tools/discovery.ts)  -/

/-- The client surface `findContact` consumes: the `searchContactByEmail`
endpoint (`none` models a thrown request error, which `findContact`
catches, falling back to the full list) and the contact list that the
cached `getContacts` pagination produces. -/
structure DiscoveryClientModel where
  searchByEmail : String → Option (List DexContact)
  contacts : List DexContact

/-- `ContactDiscoveryTools.findContact`: throw an input-validation
`Error` when no identifying parameter is truthy; with a truthy email,
try the search endpoint first and return its non-empty hits at
confidence 100; otherwise load the contacts and run
`ContactMatcher.findMatches`. -/
def findContact (engine : FuseEngine) (client : DiscoveryClientModel)
    (params : SearchParams) : Except String (List ContactMatch) :=
  if optTruthy params.name = false ∧ optTruthy params.email = false ∧
      optTruthy params.phone = false ∧ optTruthy params.social_url = false then
    .error "At least one search parameter (name, email, phone, or social_url) is required"
  else
    match params.email with
    | some e =>
      if e ≠ "" then
        match client.searchByEmail e with
        | some results =>
          if results ≠ [] then
            .ok (results.map fun c => ⟨c, 100, "Exact email match via search API"⟩)
          else .ok (findMatches engine client.contacts params)
        | none => .ok (findMatches engine client.contacts params)
      else .ok (findMatches engine client.contacts params)
    | none => .ok (findMatches engine client.contacts params)

/-!  ## Concrete fixtures used by the witness theorems  -/

/-- An engine that returns no candidates (irrelevant whenever the
exact-identifier phase hits). -/
def engNone : FuseEngine := fun _ _ => []

/-- An engine that returns every searchable contact with a perfect
score. -/
def engPerfect : FuseEngine := fun sc _ => sc.map (fun s => (s, 0))

/-- An engine that returns every searchable contact with score `1/5`
(confidence 80). -/
def engFifth : FuseEngine := fun sc _ => sc.map (fun s => (s, 1 / 5))

def fixC1 : DexContact :=
  { id := "x1", first_name := "Ada", last_name := "L",
    emails := [{ email := "A@B.com" }],
    phones := [{ phone_number := "555-123-4567" }] }

def fixJohns : List DexContact :=
  (List.range 10).map fun i =>
    { id := "j" ++ toString i, first_name := "John", last_name := "" }

def fixC7 : DexContact :=
  { id := "x7", first_name := "Jon", last_name := "Doe",
    job_title := some "Senior Engineer" }

def fixDoc1 : SearchableDocument :=
  { contactId := "c1", documentType := .contact, documentId := "c1",
    searchableText := "Recruiter at Anthropic",
    metadata := { field := some "job_title" } }

def fixDoc2 : SearchableDocument :=
  { contactId := "c1", documentType := .note, documentId := "n1",
    searchableText := "Anthropic call",
    metadata := { rawContent := some "Anthropic call" } }

def fixDoc3 : SearchableDocument :=
  { contactId := "c2", documentType := .note, documentId := "n2",
    searchableText := "Anthropic intro", metadata := {} }

def fixCmap : List (String × DexContact) :=
  [("c1", { id := "c1", first_name := "A", last_name := "A" }),
   ("c2", { id := "c2", first_name := "B", last_name := "B" })]

def fixFuseResults : List FuseMatchResult :=
  [⟨fixDoc1, 1 / 10, some (13, 21)⟩, ⟨fixDoc2, 1 / 10, some (0, 8)⟩,
   ⟨fixDoc3, 1 / 10, some (0, 8)⟩]

def fixClientA : DexClientModel :=
  { contacts := [{ id := "a", first_name := "Al", last_name := "S" }],
    notes := [], reminders := [] }

def fixClientB : DexClientModel :=
  { contacts := [{ id := "b", first_name := "Bo", last_name := "T" }],
    notes := [{ id := "n1", note := "<p>Hi</p>", event_time := "2024-01-01",
                contacts := ["b"] }],
    reminders := [] }

/-- Index state after one refresh against `fixClientA` at time 5. -/
def fixStA : IndexState := (refreshIndex (mkIndex) fixClientA 5).1

/-- Index state after a second, post-TTL refresh against `fixClientB`. -/
def fixStB : IndexState := (refreshIndex fixStA fixClientB (5 + 1800000)).1

/-!  ## Character- and string-level lemmas  -/

theorem toNat_charOfNat_valid (n : ℕ) (h : n.isValidChar) :
    (Char.ofNat n).toNat = n := by
  simp only [Char.ofNat, dif_pos h]
  simp [Char.ofNatAux, Char.toNat, UInt32.toNat, UInt32.ofNatCore]

theorem charToLower_toNat_of_upper (c : Char) (h : 65 ≤ c.toNat ∧ c.toNat ≤ 90) :
    (charToLower c).toNat = c.toNat + 32 := by
  have hv : (c.toNat + 32).isValidChar := by
    constructor
    omega
  simp [charToLower, if_pos h, toNat_charOfNat_valid _ hv]

theorem charToLower_idem (c : Char) :
    charToLower (charToLower c) = charToLower c := by
  by_cases h : 65 ≤ c.toNat ∧ c.toNat ≤ 90
  · have ht := charToLower_toNat_of_upper c h
    have hx : ¬(65 ≤ (charToLower c).toNat ∧ (charToLower c).toNat ≤ 90) := by
      omega
    conv_lhs => rw [charToLower]
    rw [if_neg hx]
  · unfold charToLower
    rw [if_neg h, if_neg h]

theorem jsWhitespace_charToLower (c : Char) :
    jsWhitespace (charToLower c) = jsWhitespace c := by
  by_cases h : 65 ≤ c.toNat ∧ c.toNat ≤ 90
  · have ht := charToLower_toNat_of_upper c h
    simp only [jsWhitespace, ht, decide_eq_decide]
    omega
  · simp [charToLower, if_neg h]

theorem jsDigit_charToLower (c : Char) :
    jsDigit (charToLower c) = jsDigit c := by
  by_cases h : 65 ≤ c.toNat ∧ c.toNat ≤ 90
  · have ht := charToLower_toNat_of_upper c h
    simp only [jsDigit, ht, decide_eq_decide]
    omega
  · simp [charToLower, if_neg h]

theorem lowerL_idem (l : List Char) : lowerL (lowerL l) = lowerL l := by
  simp [lowerL, List.map_map, Function.comp_def, charToLower_idem]

theorem lowerL_dropWhile (l : List Char) :
    lowerL (l.dropWhile jsWhitespace) = (lowerL l).dropWhile jsWhitespace := by
  induction l with
  | nil => rfl
  | cons c t ih =>
    by_cases h : jsWhitespace c
    · simp [lowerL, List.dropWhile_cons, h, jsWhitespace_charToLower] at *
      exact ih
    · simp [lowerL, List.dropWhile_cons, h, jsWhitespace_charToLower]

theorem lowerL_reverse (l : List Char) :
    lowerL l.reverse = (lowerL l).reverse := by
  simp [lowerL, List.map_reverse]

theorem lowerL_trimL (l : List Char) : lowerL (trimL l) = trimL (lowerL l) := by
  simp [trimL, trimRightL, trimLeftL, lowerL_reverse, lowerL_dropWhile]

theorem dropWhile_idem (p : Char → Bool) (l : List Char) :
    (l.dropWhile p).dropWhile p = l.dropWhile p := by
  induction l with
  | nil => rfl
  | cons c t ih =>
    by_cases h : p c
    · simpa [List.dropWhile_cons, h] using ih
    · simp [List.dropWhile_cons, h]

theorem trimRightL_idem (l : List Char) :
    trimRightL (trimRightL l) = trimRightL l := by
  simp [trimRightL, dropWhile_idem]

/-- `trimRightL` is an initial segment of its input: it only removes
characters at the end. -/
theorem trimRightL_append (l : List Char) :
    ∃ t, l = trimRightL l ++ t := by
  have h := List.dropWhile_suffix (l := l.reverse) (p := jsWhitespace)
  obtain ⟨t, ht⟩ := h
  refine ⟨t.reverse, ?_⟩
  have : l.reverse.reverse = (t ++ l.reverse.dropWhile jsWhitespace).reverse := by
    rw [ht]
  simpa [trimRightL] using this

theorem head?_dropWhile_not (p : Char → Bool) (l : List Char) :
    ∀ c ∈ (l.dropWhile p).head?, p c = false := by
  induction l with
  | nil => simp
  | cons c t ih =>
    by_cases h : p c
    · simpa [List.dropWhile_cons, h] using ih
    · simp [List.dropWhile_cons, h]

theorem dropWhile_eq_self_of_head (p : Char → Bool) (l : List Char)
    (h : ∀ c ∈ l.head?, p c = false) : l.dropWhile p = l := by
  cases l with
  | nil => rfl
  | cons c t =>
    have := h c (by simp)
    simp [List.dropWhile_cons, this]

theorem trimL_idem (l : List Char) : trimL (trimL l) = trimL l := by
  unfold trimL
  have h1 : trimLeftL (trimRightL (trimLeftL l)) = trimRightL (trimLeftL l) := by
    apply dropWhile_eq_self_of_head
    intro c hc
    obtain ⟨t, ht⟩ := trimRightL_append (trimLeftL l)
    cases hz : trimRightL (trimLeftL l) with
    | nil => rw [hz] at hc; simp at hc
    | cons x xs =>
      rw [hz] at hc
      simp at hc
      subst hc
      have hm : (trimLeftL l).head? = some x := by rw [ht, hz]; rfl
      exact head?_dropWhile_not jsWhitespace l x (Option.mem_def.mpr hm)
  rw [h1, trimRightL_idem]

theorem length_dropWhile_le {α : Type} (p : α → Bool) (l : List α) :
    (l.dropWhile p).length ≤ l.length :=
  (List.dropWhile_suffix p).sublist.length_le

theorem normalizeEmail_idem (s : String) :
    normalizeEmail (normalizeEmail s) = normalizeEmail s := by
  show (⟨trimL (lowerL (trimL (lowerL s.data)))⟩ : String) = ⟨trimL (lowerL s.data)⟩
  rw [lowerL_trimL, lowerL_idem, trimL_idem]

theorem filter_jsDigit_normalizePhone (s : String) :
    (normalizePhone s).data.filter jsDigit = (normalizePhone s).data := by
  rw [List.filter_eq_self]
  intro a ha
  simp only [normalizePhone] at ha
  split at ha
  · simp only at ha
    exact List.of_mem_filter (List.drop_subset _ _ ha)
  · simp only at ha
    exact List.of_mem_filter ha

theorem normalizePhone_length_le (s : String) :
    (normalizePhone s).data.length ≤ 10 := by
  simp only [normalizePhone]
  split
  · dsimp only
    simp only [List.length_drop]
    omega
  · dsimp only
    omega

theorem normalizePhone_idem (s : String) :
    normalizePhone (normalizePhone s) = normalizePhone s := by
  have h1 := filter_jsDigit_normalizePhone s
  have h2 := normalizePhone_length_le s
  conv_lhs => rw [normalizePhone]
  rw [h1]
  rw [if_neg (by omega)]

/-!  ## Claim C2  -/

/-- C2 (counterexample): the claim "each of the three normalizers is
idempotent for every input string" is false for `normalizeUrl`: on
`"foo//"` the fallback strips only one trailing slash, yielding
`"foo/"`, which normalizes further to `"foo"`. -/
theorem normalizeUrl_not_idempotent :
    normalizeUrl "foo//" = "foo/" ∧ normalizeUrl "foo/" = "foo" ∧
    normalizeUrl (normalizeUrl "foo//") ≠ normalizeUrl "foo//" := by decide

/-- C2 (amended): `normalizeEmail` and `normalizePhone` are idempotent
for every input string; `normalizeUrl` (the social-URL normalizer) is
not idempotent in general. -/
theorem normalize_email_phone_idempotent (s : String) :
    normalizeEmail (normalizeEmail s) = normalizeEmail s ∧
    normalizePhone (normalizePhone s) = normalizePhone s :=
  ⟨normalizeEmail_idem s, normalizePhone_idem s⟩

/-!  ## Claim C9  -/

/-- C9: calling the match-finding operation with no identifying
parameter (none of name, email, phone, social_url truthy) yields the
input-validation error, regardless of the engine, the client, or a
`company` value — never a silently empty match list. -/
theorem findContact_no_params_error (engine : FuseEngine)
    (client : DiscoveryClientModel) (params : SearchParams)
    (hn : optTruthy params.name = false) (he : optTruthy params.email = false)
    (hp : optTruthy params.phone = false)
    (hs : optTruthy params.social_url = false) :
    findContact engine client params =
      .error "At least one search parameter (name, email, phone, or social_url) is required" := by
  unfold findContact
  rw [if_pos ⟨hn, he, hp, hs⟩]

theorem findContact_no_params_error_witness :
    findContact engNone ⟨fun _ => none, []⟩ { company := some "Acme" } =
      .error "At least one search parameter (name, email, phone, or social_url) is required" :=
  findContact_no_params_error engNone ⟨fun _ => none, []⟩
    { company := some "Acme" } rfl rfl rfl rfl

/-!  ## Claim C4  -/

/-- C4: once an index has completed a refresh (`lastRefresh` non-zero),
a `refreshIndex` call with `now - lastRefresh < TTL` performs no
collaborator fetches and leaves the whole state (documents, contact map,
Fuse index, `lastRefresh`) unchanged; with `now - lastRefresh ≥ TTL` it
performs the full bulk-fetch sequence (paginated contacts, notes,
reminders), rebuilds the documents, and restamps `lastRefresh`. The
constructor makes the TTL configurable, defaulting to 30 minutes. -/
theorem refreshIndex_ttl (st : IndexState) (client : DexClientModel)
    (now : ℤ) (h0 : st.lastRefresh ≠ 0) :
    (now - st.lastRefresh < st.cacheTTL → refreshIndex st client now = (st, [])) ∧
    (st.cacheTTL ≤ now - st.lastRefresh →
      (refreshIndex st client now).2 =
        (loadAllContacts client.contacts).2 ++
          [FetchCall.getNotes, FetchCall.getReminders] ∧
      (refreshIndex st client now).1.lastRefresh = now ∧
      (refreshIndex st client now).1.documents = refreshDocs client) ∧
    (∀ m : ℤ, (mkIndex m).cacheTTL = m * 60 * 1000) ∧
    (mkIndex).cacheTTL = 30 * 60 * 1000 := by
  refine ⟨?_, ?_, fun m => rfl, rfl⟩
  · intro h
    unfold refreshIndex
    rw [if_pos ⟨h0, h⟩]
  · intro h
    unfold refreshIndex
    rw [if_neg (fun hc => absurd hc.2 (not_lt.mpr h))]
    exact ⟨rfl, rfl, rfl⟩

theorem refreshIndex_ttl_witness :
    refreshIndex fixStA fixClientB 6 = (fixStA, []) ∧
    (refreshIndex fixStA fixClientB (5 + 1800000)).2 =
      (loadAllContacts fixClientB.contacts).2 ++
        [FetchCall.getNotes, FetchCall.getReminders] :=
  ⟨(refreshIndex_ttl fixStA fixClientB 6 (by decide)).1 (by decide),
   ((refreshIndex_ttl fixStA fixClientB (5 + 1800000) (by decide)).2.1
      (by decide)).1⟩

/-!  ## JS-Map and pagination lemmas  -/

theorem jsMapGet_jsMapSet_self {β : Type} (m : List (String × β))
    (k : String) (v : β) : jsMapGet (jsMapSet m k v) k = some v := by
  induction m with
  | nil => simp [jsMapSet, jsMapGet]
  | cons p t ih =>
    obtain ⟨k', v'⟩ := p
    by_cases h : k' = k
    · simp [jsMapSet, jsMapGet, h]
    · simp [jsMapSet, jsMapGet, h, ih]

theorem jsMapGet_jsMapSet_other {β : Type} (m : List (String × β))
    (k k' : String) (v : β) (h : k' ≠ k) :
    jsMapGet (jsMapSet m k v) k' = jsMapGet m k' := by
  have hk : k ≠ k' := Ne.symm h
  induction m with
  | nil => simp [jsMapSet, jsMapGet, hk]
  | cons p t ih =>
    obtain ⟨k0, v0⟩ := p
    by_cases h0 : k0 = k
    · subst h0
      simp [jsMapSet, jsMapGet, hk]
    · simp [jsMapSet, jsMapGet, h0, ih]

theorem foldl_jsMapSet_get_notMem (cs : List DexContact) :
    ∀ (m : List (String × DexContact)) (k : String),
    k ∉ cs.map (fun c => c.id) →
    jsMapGet (cs.foldl (fun m c => jsMapSet m c.id c) m) k = jsMapGet m k := by
  induction cs with
  | nil => intro m k _; rfl
  | cons c t ih =>
    intro m k h
    simp only [List.map_cons, List.mem_cons, not_or] at h
    rw [List.foldl_cons, ih _ _ h.2, jsMapGet_jsMapSet_other _ _ _ _ h.1]

theorem foldl_jsMapSet_get_mem (cs : List DexContact) :
    ∀ (m : List (String × DexContact)) (c : DexContact),
    (cs.map (fun c => c.id)).Nodup → c ∈ cs →
    jsMapGet (cs.foldl (fun m c => jsMapSet m c.id c) m) c.id = some c := by
  induction cs with
  | nil => intro m c _ hc; cases hc
  | cons a t ih =>
    intro m c hnd hc
    rw [List.foldl_cons, List.map_cons, List.nodup_cons] at *
    rcases List.mem_cons.mp hc with rfl | hct
    · rw [foldl_jsMapSet_get_notMem t _ _ hnd.1, jsMapGet_jsMapSet_self]
    · exact ih _ c hnd.2 hct

theorem loadAllContactsAux_fst (store : List DexContact) (fuel : ℕ) :
    ∀ offset : ℕ, store.length ≤ offset + 100 * fuel →
    (loadAllContactsAux store fuel offset).1 = store.drop offset := by
  induction fuel with
  | zero =>
    intro offset h
    simp only [loadAllContactsAux]
    symm
    apply List.drop_eq_nil_of_le
    omega
  | succ fuel ih =>
    intro offset h
    rw [loadAllContactsAux]
    split
    · rename_i hlt
      have hlen : (store.drop offset).length ≤ 100 := by
        rw [List.length_take] at hlt
        omega
      exact List.take_of_length_le hlen
    · rename_i hge
      simp only
      rw [ih (offset + 100) (by omega)]
      have hd : store.drop (offset + 100) = (store.drop offset).drop 100 := by
        rw [List.drop_drop]
      rw [hd, List.take_append_drop]

theorem loadAllContacts_fst (store : List DexContact) :
    (loadAllContacts store).1 = store := by
  have := loadAllContactsAux_fst store (store.length + 1) 0 (by omega)
  simpa [loadAllContacts] using this

/-!  ## Claim C6  -/

/-- C6 (counterexample): the claim that after a refresh "the contact map
contains exactly the contacts of S … no contact-map entry from any
earlier refresh persists" is false: the map is never cleared. After a
first refresh loads contact `"a"` and a second, post-TTL refresh loads
only contact `"b"`, the entry for `"a"` is still in the map. -/
theorem contactsMap_persists_counterexample :
    fixStA.cacheTTL ≤ (5 + 1800000 : ℤ) - fixStA.lastRefresh ∧
    jsMapGet fixStB.contactsMap "a" =
      some { id := "a", first_name := "Al", last_name := "S" } ∧
    "a" ∉ fixClientB.contacts.map (fun c => c.id) := by decide

/-- C6 (amended): after a refresh that actually fetches, the document
list and the Fuse index are rebuilt exactly from the fetched contacts,
notes, and reminders (no document from an earlier refresh persists), and
`lastRefresh` is restamped; every fetched contact is present in the
contact map under its id, but the map itself is cumulative — entries
from earlier refreshes whose ids are not among the fetched contacts
persist. -/
theorem refreshIndex_rebuild (st : IndexState) (client : DexClientModel)
    (now : ℤ) (h : ¬(st.lastRefresh ≠ 0 ∧ now - st.lastRefresh < st.cacheTTL)) :
    (refreshIndex st client now).1.documents =
      client.contacts.flatMap extractContactDocuments ++
      client.notes.flatMap extractNoteDocuments ++
      client.reminders.flatMap extractReminderDocuments ∧
    (refreshIndex st client now).1.fuseDocs =
      (refreshIndex st client now).1.documents ∧
    (refreshIndex st client now).1.lastRefresh = now ∧
    ((client.contacts.map (fun c => c.id)).Nodup →
      ∀ c ∈ client.contacts,
        jsMapGet (refreshIndex st client now).1.contactsMap c.id = some c) ∧
    (∀ k v, jsMapGet st.contactsMap k = some v →
      k ∉ client.contacts.map (fun c => c.id) →
      jsMapGet (refreshIndex st client now).1.contactsMap k = some v) := by
  unfold refreshIndex
  rw [if_neg h]
  refine ⟨?_, rfl, rfl, ?_, ?_⟩
  · simp only [refreshDocs, loadAllContacts_fst]
  · intro hnd c hc
    simp only
    rw [loadAllContacts_fst]
    exact foldl_jsMapSet_get_mem client.contacts st.contactsMap c hnd hc
  · intro k v hv hk
    simp only
    rw [loadAllContacts_fst, foldl_jsMapSet_get_notMem _ _ _ hk]
    exact hv

theorem refreshIndex_rebuild_witness :
    fixStB.documents =
      fixClientB.contacts.flatMap extractContactDocuments ++
      fixClientB.notes.flatMap extractNoteDocuments ++
      fixClientB.reminders.flatMap extractReminderDocuments ∧
    jsMapGet fixStB.contactsMap "b" =
      some { id := "b", first_name := "Bo", last_name := "T" } := by
  constructor
  · exact (refreshIndex_rebuild fixStA fixClientB (5 + 1800000) (by decide)).1
  · exact (refreshIndex_rebuild fixStA fixClientB (5 + 1800000) (by decide)).2.2.2.1
      (by decide) { id := "b", first_name := "Bo", last_name := "T" } (by decide)

/-!  ## Deduplication and exact-match lemmas  -/

theorem dedupAux_mem_subset (ms : List ContactMatch) :
    ∀ seen, ∀ m ∈ dedupAux seen ms,
      m ∈ ms ∧ seen.contains m.contact.id = false := by
  induction ms with
  | nil => intro seen m hm; cases hm
  | cons a t ih =>
    intro seen m hm
    unfold dedupAux at hm
    split at hm
    · have := ih seen m hm
      exact ⟨List.mem_cons_of_mem _ this.1, this.2⟩
    · rename_i hs
      rcases List.mem_cons.mp hm with rfl | hm2
      · exact ⟨List.mem_cons_self _ _, by simpa using hs⟩
      · have h2 := ih _ m hm2
        refine ⟨List.mem_cons_of_mem _ h2.1, ?_⟩
        have := h2.2
        simp only [List.contains_cons, Bool.or_eq_false_iff] at this
        exact this.2

theorem dedupAux_ids_nodup (ms : List ContactMatch) :
    ∀ seen, ((dedupAux seen ms).map (fun m => m.contact.id)).Nodup := by
  induction ms with
  | nil => intro seen; simp [dedupAux]
  | cons a t ih =>
    intro seen
    unfold dedupAux
    split
    · exact ih seen
    · simp only [List.map_cons, List.nodup_cons]
      refine ⟨?_, ih _⟩
      intro hmem
      rw [List.mem_map] at hmem
      obtain ⟨m, hm, hid⟩ := hmem
      have h2 := (dedupAux_mem_subset t _ m hm).2
      simp [hid] at h2

theorem dedupAux_find (ms : List ContactMatch) :
    ∀ seen, ∀ m ∈ dedupAux seen ms,
      ms.find? (fun x => x.contact.id == m.contact.id) = some m := by
  induction ms with
  | nil => intro seen m hm; cases hm
  | cons a t ih =>
    intro seen m hm
    unfold dedupAux at hm
    split at hm
    · rename_i hs
      have hsub := dedupAux_mem_subset t seen m hm
      have hne : ¬((fun x => x.contact.id == m.contact.id) a = true) := by
        simp only [beq_iff_eq]
        intro hid
        rw [hid] at hs
        rw [hs] at hsub
        exact absurd hsub.2 (by simp)
      rw [List.find?_cons_of_neg
        (p := fun x => x.contact.id == m.contact.id) (a := a) t hne]
      exact ih seen m hm
    · rcases List.mem_cons.mp hm with rfl | hm2
      · rw [List.find?_cons_of_pos
          (p := fun x => x.contact.id == m.contact.id) (a := m) t (by simp)]
      · have hsub := dedupAux_mem_subset t _ m hm2
        have h2 := hsub.2
        simp only [List.contains_cons, Bool.or_eq_false_iff] at h2
        have hne : ¬((fun x => x.contact.id == m.contact.id) a = true) := by
          simp only [beq_iff_eq]
          intro hid
          have := h2.1
          simp [hid] at this
        rw [List.find?_cons_of_neg
          (p := fun x => x.contact.id == m.contact.id) (a := a) t hne]
        exact ih _ m hm2

theorem dedupAux_covers (ms : List ContactMatch) :
    ∀ seen, ∀ m ∈ ms, seen.contains m.contact.id = true ∨
      ∃ m2 ∈ dedupAux seen ms, m2.contact.id = m.contact.id := by
  induction ms with
  | nil => intro seen m hm; cases hm
  | cons a t ih =>
    intro seen m hm
    unfold dedupAux
    split
    · rename_i hs
      rcases List.mem_cons.mp hm with rfl | hm2
      · exact Or.inl hs
      · exact ih seen m hm2
    · rename_i hs
      rcases List.mem_cons.mp hm with rfl | hm2
      · exact Or.inr ⟨_, List.mem_cons_self _ _, rfl⟩
      · rcases ih (a.contact.id :: seen) m hm2 with hc | ⟨m2, hm2d, hid⟩
        · simp only [List.contains_cons, Bool.or_eq_true] at hc
          rcases hc with hc1 | hc2
          · refine Or.inr ⟨a, List.mem_cons_self _ _, ?_⟩
            have h3 : m.contact.id = a.contact.id := by simpa using hc1
            exact h3.symm
          · exact Or.inl hc2
        · exact Or.inr ⟨m2, List.mem_cons_of_mem _ hm2d, hid⟩

theorem mem_findByEmail (contacts : List DexContact) (e : String)
    (m : ContactMatch) (hm : m ∈ findByEmail contacts e) :
    m.confidence = 100 ∧ m.match_reason = "Exact email match" := by
  unfold findByEmail at hm
  rw [List.mem_filterMap] at hm
  obtain ⟨c, _, hsome⟩ := hm
  split at hsome
  · cases hsome
    exact ⟨rfl, rfl⟩
  · cases hsome

theorem mem_findByPhone (contacts : List DexContact) (p : String)
    (m : ContactMatch) (hm : m ∈ findByPhone contacts p) :
    m.confidence = 100 ∧ m.match_reason = "Exact phone match" := by
  unfold findByPhone at hm
  rw [List.mem_filterMap] at hm
  obtain ⟨c, _, hsome⟩ := hm
  split at hsome
  · cases hsome
    exact ⟨rfl, rfl⟩
  · cases hsome

theorem mem_findBySocialUrl (contacts : List DexContact) (u : String)
    (m : ContactMatch) (hm : m ∈ findBySocialUrl contacts u) :
    m.confidence = 100 ∧ m.match_reason = "Exact social profile match" := by
  unfold findBySocialUrl at hm
  rw [List.mem_filterMap] at hm
  obtain ⟨c, _, hsome⟩ := hm
  split at hsome
  · cases hsome
    exact ⟨rfl, rfl⟩
  · cases hsome

theorem exactMatches_shape (contacts : List DexContact) (params : SearchParams) :
    ∀ m ∈ exactMatches contacts params, m.confidence = 100 ∧
      (m.match_reason = "Exact email match" ∨
       m.match_reason = "Exact phone match" ∨
       m.match_reason = "Exact social profile match") := by
  intro m hm
  unfold exactMatches at hm
  rcases List.mem_append.mp hm with hm1 | hm3
  · rcases List.mem_append.mp hm1 with hme | hmp
    · split at hme
      · split at hme
        · have := mem_findByEmail _ _ _ hme
          exact ⟨this.1, Or.inl this.2⟩
        · cases hme
      · cases hme
    · split at hmp
      · split at hmp
        · have := mem_findByPhone _ _ _ hmp
          exact ⟨this.1, Or.inr (Or.inl this.2)⟩
        · cases hmp
      · cases hmp
  · split at hm3
    · split at hm3
      · have := mem_findBySocialUrl _ _ _ hm3
        exact ⟨this.1, Or.inr (Or.inr this.2)⟩
      · cases hm3
    · cases hm3

/-!  ## Claim C1  -/

/-- C1: whenever the exact-identifier phase produces at least one hit,
`findMatches` returns exactly those hits deduplicated by contact id
(first occurrence wins, each id exactly once, every match at confidence
100 with an exact-identifier reason), independently of the fuzzy engine
— fuzzy name matching never runs. In particular, when exactly one
contact matches email `e`, `findMatches {email := e, name := n}` returns
just that match. -/
theorem findMatches_exact_path (engine engine2 : FuseEngine)
    (contacts : List DexContact) (params : SearchParams)
    (h : exactMatches contacts params ≠ []) :
    findMatches engine contacts params =
      deduplicateMatches (exactMatches contacts params) ∧
    findMatches engine contacts params = findMatches engine2 contacts params ∧
    ((findMatches engine contacts params).map (fun m => m.contact.id)).Nodup ∧
    (∀ m ∈ findMatches engine contacts params,
      (exactMatches contacts params).find?
        (fun x => x.contact.id == m.contact.id) = some m) ∧
    (∀ m ∈ exactMatches contacts params,
      ∃ m2 ∈ findMatches engine contacts params,
        m2.contact.id = m.contact.id) ∧
    (∀ m ∈ findMatches engine contacts params, m.confidence = 100 ∧
      (m.match_reason = "Exact email match" ∨
       m.match_reason = "Exact phone match" ∨
       m.match_reason = "Exact social profile match")) ∧
    (∀ (e n : String) (X : ContactMatch), e ≠ "" →
      findByEmail contacts e = [X] →
      findMatches engine contacts { email := some e, name := some n } = [X]) := by
  have heq : findMatches engine contacts params =
      deduplicateMatches (exactMatches contacts params) := by
    unfold findMatches
    rw [if_pos h]
  have heq2 : findMatches engine2 contacts params =
      deduplicateMatches (exactMatches contacts params) := by
    unfold findMatches
    rw [if_pos h]
  refine ⟨heq, heq.trans heq2.symm, ?_, ?_, ?_, ?_, ?_⟩
  · rw [heq]
    exact dedupAux_ids_nodup _ []
  · intro m hm
    rw [heq] at hm
    exact dedupAux_find _ [] m hm
  · intro m hm
    rcases dedupAux_covers _ [] m hm with hc | hex
    · simp at hc
    · rw [heq]
      exact hex
  · intro m hm
    rw [heq] at hm
    exact exactMatches_shape contacts params m (dedupAux_mem_subset _ [] m hm).1
  · intro e n X he hX
    have hex : exactMatches contacts { email := some e, name := some n } = [X] := by
      unfold exactMatches
      simp [he, hX]
    unfold findMatches
    simp [hex, deduplicateMatches, dedupAux]

theorem findMatches_exact_path_witness :
    exactMatches [fixC1]
      { email := some "a@b.com ", name := some "someone else entirely" } ≠ [] ∧
    findMatches engPerfect [fixC1]
      { email := some "a@b.com ", name := some "someone else entirely" } =
      [⟨fixC1, 100, "Exact email match"⟩] ∧
    findMatches engPerfect [fixC1]
      { email := some "A@B.com", phone := some "(555) 123-4567" } =
      [⟨fixC1, 100, "Exact email match"⟩] := by
  refine ⟨by decide, ?_, ?_⟩
  · exact (findMatches_exact_path engPerfect engNone [fixC1]
      { email := some "a@b.com ", name := some "someone else entirely" }
      (by decide)).2.2.2.2.2.2 "a@b.com " "someone else entirely"
      ⟨fixC1, 100, "Exact email match"⟩ (by decide) (by decide)
  · exact ((findMatches_exact_path engPerfect engNone [fixC1]
      { email := some "A@B.com", phone := some "(555) 123-4567" }
      (by decide)).1).trans (by decide)

/-!  ## Rounding and sorting lemmas  -/

theorem le_jsRound_of_le (z : ℤ) (q : ℚ) (h : (z : ℚ) ≤ q) : z ≤ jsRound q := by
  unfold jsRound
  rw [Int.le_floor]
  push_cast
  linarith

theorem jsRound_mono {q q' : ℚ} (h : q ≤ q') : jsRound q ≤ jsRound q' := by
  unfold jsRound
  exact Int.floor_le_floor (by linarith)

theorem mem_insertByConf {α : Type} (conf : α → ℤ) (x y : α) (l : List α)
    (h : y ∈ insertByConf conf x l) : y = x ∨ y ∈ l := by
  induction l with
  | nil => simpa [insertByConf] using h
  | cons a t ih =>
    unfold insertByConf at h
    split at h
    · rcases List.mem_cons.mp h with rfl | h2
      · exact Or.inr (List.mem_cons_self _ _)
      · rcases ih h2 with h3 | h3
        · exact Or.inl h3
        · exact Or.inr (List.mem_cons_of_mem _ h3)
    · rcases List.mem_cons.mp h with rfl | h2
      · exact Or.inl rfl
      · exact Or.inr h2

theorem mem_sortByConfDesc {α : Type} (conf : α → ℤ) (y : α) (l : List α)
    (h : y ∈ sortByConfDesc conf l) : y ∈ l := by
  induction l with
  | nil => simpa [sortByConfDesc] using h
  | cons a t ih =>
    unfold sortByConfDesc at h
    rcases mem_insertByConf conf a y _ h with rfl | h2
    · exact List.mem_cons_self _ _
    · exact List.mem_cons_of_mem _ (ih h2)

theorem length_insertByConf {α : Type} (conf : α → ℤ) (x : α) (l : List α) :
    (insertByConf conf x l).length = l.length + 1 := by
  induction l with
  | nil => rfl
  | cons a t ih =>
    unfold insertByConf
    split
    · simp [ih]
    · simp

theorem length_sortByConfDesc {α : Type} (conf : α → ℤ) (l : List α) :
    (sortByConfDesc conf l).length = l.length := by
  induction l with
  | nil => rfl
  | cons a t ih =>
    unfold sortByConfDesc
    rw [length_insertByConf, ih]
    rfl

theorem sorted_insertByConf {α : Type} (conf : α → ℤ) (x : α) (l : List α)
    (h : l.Pairwise (fun a b => conf b ≤ conf a)) :
    (insertByConf conf x l).Pairwise (fun a b => conf b ≤ conf a) := by
  induction l with
  | nil => simp [insertByConf]
  | cons a t ih =>
    rw [List.pairwise_cons] at h
    unfold insertByConf
    split
    · rename_i hlt
      rw [List.pairwise_cons]
      refine ⟨?_, ih h.2⟩
      intro y hy
      rcases mem_insertByConf conf x y t hy with rfl | h2
      · omega
      · exact h.1 y h2
    · rename_i hge
      rw [List.pairwise_cons]
      refine ⟨?_, List.pairwise_cons.mpr h⟩
      intro y hy
      rcases List.mem_cons.mp hy with rfl | h2
      · omega
      · have := h.1 y h2
        omega

theorem sorted_sortByConfDesc {α : Type} (conf : α → ℤ) (l : List α) :
    (sortByConfDesc conf l).Pairwise (fun a b => conf b ≤ conf a) := by
  induction l with
  | nil => simp [sortByConfDesc]
  | cons a t ih =>
    unfold sortByConfDesc
    exact sorted_insertByConf conf a _ ih

theorem mem_sortAndLimit (ms : List ContactMatch) (m : ContactMatch)
    (hm : m ∈ sortAndLimitMatches ms) : m ∈ ms := by
  unfold sortAndLimitMatches at hm
  exact mem_sortByConfDesc _ m ms (List.mem_of_mem_take hm)

theorem sortAndLimit_length (ms : List ContactMatch) :
    (sortAndLimitMatches ms).length ≤ 5 := by
  unfold sortAndLimitMatches
  exact List.length_take_le 5 _

theorem sortAndLimit_sorted (ms : List ContactMatch) :
    (sortAndLimitMatches ms).Pairwise
      (fun a b => b.confidence ≤ a.confidence) := by
  unfold sortAndLimitMatches
  apply List.Pairwise.sublist (List.take_sublist _ _)
  exact sorted_sortByConfDesc _ ms

theorem mem_findByName_decomp (engine : FuseEngine)
    (contacts : List DexContact) (n : String) (comp : Option String)
    (m : ContactMatch) (hm : m ∈ findByName engine contacts n comp) :
    ∃ r ∈ engine (contacts.map mkSearchable) n,
      60 ≤ (scoreCandidate comp r.1 r.2).1 ∧
      m = ⟨r.1.contact, jsRound (scoreCandidate comp r.1 r.2).1,
           (scoreCandidate comp r.1 r.2).2⟩ := by
  unfold findByName at hm
  rw [List.mem_filterMap] at hm
  obtain ⟨r, hr, hsome⟩ := hm
  split at hsome
  · cases hsome
    exact ⟨r, hr, by assumption, rfl⟩
  · cases hsome

/-!  ## Claim C5  -/

/-- C5: when a name query reaches the fuzzy-name path of `findMatches`
(no exact-identifier hit, truthy name), the returned list has length at
most 5, is sorted by confidence descending, and contains only matches
with confidence at least 60. -/
theorem findMatches_fuzzy_path (engine : FuseEngine)
    (contacts : List DexContact) (params : SearchParams) (n : String)
    (hex : exactMatches contacts params = [])
    (hn : params.name = some n) (hne : n ≠ "") :
    (findMatches engine contacts params).length ≤ 5 ∧
    (findMatches engine contacts params).Pairwise
      (fun a b => b.confidence ≤ a.confidence) ∧
    ∀ m ∈ findMatches engine contacts params, 60 ≤ m.confidence := by
  have heq : findMatches engine contacts params =
      sortAndLimitMatches (findByName engine contacts n params.company) := by
    unfold findMatches
    rw [hex, hn]
    simp [hne]
  rw [heq]
  refine ⟨sortAndLimit_length _, sortAndLimit_sorted _, ?_⟩
  intro m hm
  obtain ⟨r, hr, h60, rfl⟩ := mem_findByName_decomp engine contacts n
    params.company m (mem_sortAndLimit _ m hm)
  exact le_jsRound_of_le 60 _ (by exact_mod_cast h60)

theorem findMatches_fuzzy_path_witness :
    fixJohns.length = 10 ∧
    exactMatches fixJohns { name := some "John" } = [] ∧
    (findMatches engPerfect fixJohns { name := some "John" }).length ≤ 5 := by
  refine ⟨by decide, by decide, ?_⟩
  exact (findMatches_fuzzy_path engPerfect fixJohns { name := some "John" }
    "John" (by decide) rfl (by decide)).1

/-!  ## Score-candidate lemmas  -/

theorem fuseScoreToConfidence_le_100 (s : ℚ) (h : 0 ≤ s) :
    fuseScoreToConfidence s ≤ 100 := by
  unfold fuseScoreToConfidence
  rw [max_le_iff]
  constructor
  · norm_num
  · nlinarith

theorem scoreCandidate_none (item : SearchableContact) (score : ℚ) :
    scoreCandidate none item score =
      (fuseScoreToConfidence score, "Name fuzzy match") := rfl

theorem scoreCandidate_mono (comp : String) (item : SearchableContact)
    (score : ℚ) (h : 0 ≤ score) :
    (scoreCandidate none item score).1 ≤
      (scoreCandidate (some comp) item score).1 := by
  rw [scoreCandidate_none]
  unfold scoreCandidate
  cases hjt : item.contact.job_title with
  | none => simp
  | some jt =>
    simp only
    split
    · simp only
      have h100 := fuseScoreToConfidence_le_100 score h
      exact le_min h100 (by linarith)
    · simp

theorem scoreCandidate_boost (comp : String) (item : SearchableContact)
    (score : ℚ) (jt : String) (hjt : item.contact.job_title = some jt)
    (hcne : comp ≠ "") (hjne : jt ≠ "")
    (hsim : (8 : ℚ) / 10 < compareStrings (jsLower comp) (jsLower jt)) :
    scoreCandidate (some comp) item score =
      (min 100 (fuseScoreToConfidence score + 15), "Name and company match") := by
  unfold scoreCandidate
  rw [hjt]
  dsimp only
  rw [if_pos ⟨hcne, hjne, hsim⟩]

theorem scoreCandidate_no_boost (comp : String) (item : SearchableContact)
    (score : ℚ)
    (h : ∀ jt, item.contact.job_title = some jt →
      comp = "" ∨ jt = "" ∨
      compareStrings (jsLower comp) (jsLower jt) ≤ 8 / 10) :
    scoreCandidate (some comp) item score =
      (fuseScoreToConfidence score, "Name fuzzy match") := by
  unfold scoreCandidate
  cases hjt : item.contact.job_title with
  | none => rfl
  | some jt =>
    dsimp only
    rw [if_neg]
    rintro ⟨h1, h2, h3⟩
    rcases h jt hjt with hc | hc | hc
    · exact h1 hc
    · exact h2 hc
    · exact absurd h3 (not_lt.mpr hc)

/-!  ## Claim C7  -/

/-- C7: for a fixed name query, on the fuzzy-name path, the confidence
`findMatches` assigns with a `company` parameter is at least the
confidence assigned to the same contact without it (assuming the engine
reports each contact once, with a non-negative score); and the
per-candidate boost is exactly: when the candidate has a non-empty job
title whose lowercased word-set (Jaccard) similarity with the lowercased
company exceeds 0.8, add exactly 15 capped at 100 with reason
"Name and company match", otherwise leave the confidence and the reason
"Name fuzzy match" unchanged. -/
theorem findMatches_company_boost (engine : FuseEngine)
    (contacts : List DexContact) (n comp : String) (hne : n ≠ "")
    (hscore : ∀ r ∈ engine (contacts.map mkSearchable) n, 0 ≤ r.2)
    (hnodup : ((engine (contacts.map mkSearchable) n).map
      (fun r => r.1.contact.id)).Nodup) :
    (∀ m ∈ findMatches engine contacts { name := some n, company := some comp },
     ∀ m2 ∈ findMatches engine contacts { name := some n },
      m.contact.id = m2.contact.id → m2.confidence ≤ m.confidence) ∧
    (∀ (item : SearchableContact) (score : ℚ) (jt : String),
      item.contact.job_title = some jt → comp ≠ "" → jt ≠ "" →
      (8 : ℚ) / 10 < compareStrings (jsLower comp) (jsLower jt) →
      scoreCandidate (some comp) item score =
        (min 100 (fuseScoreToConfidence score + 15), "Name and company match")) ∧
    (∀ (item : SearchableContact) (score : ℚ),
      (∀ jt, item.contact.job_title = some jt →
        comp = "" ∨ jt = "" ∨
        compareStrings (jsLower comp) (jsLower jt) ≤ 8 / 10) →
      scoreCandidate (some comp) item score =
        (fuseScoreToConfidence score, "Name fuzzy match")) := by
  refine ⟨?_, ?_, ?_⟩
  · intro m hm m2 hm2 hid
    have heq1 : findMatches engine contacts
        { name := some n, company := some comp } =
        sortAndLimitMatches (findByName engine contacts n (some comp)) := by
      unfold findMatches
      have hex : exactMatches contacts
          { name := some n, company := some comp } = [] := rfl
      rw [hex]
      simp [hne]
    have heq2 : findMatches engine contacts { name := some n } =
        sortAndLimitMatches (findByName engine contacts n none) := by
      unfold findMatches
      have hex : exactMatches contacts { name := some n } = [] := rfl
      rw [hex]
      simp [hne]
    rw [heq1] at hm
    rw [heq2] at hm2
    obtain ⟨r, hr, h60, hm_eq⟩ := mem_findByName_decomp engine contacts n
      (some comp) m (mem_sortAndLimit _ m hm)
    obtain ⟨r2, hr2, h60b, hm2_eq⟩ := mem_findByName_decomp engine contacts n
      none m2 (mem_sortAndLimit _ m2 hm2)
    have hid2 : r.1.contact.id = r2.1.contact.id := by
      simp only [hm_eq, hm2_eq] at hid
      exact hid
    have hrr : r = r2 := List.inj_on_of_nodup_map hnodup hr hr2 hid2
    subst hrr
    rw [hm_eq, hm2_eq]
    exact jsRound_mono (scoreCandidate_mono comp r.1 r.2 (hscore r hr))
  · intro item score jt hjt h1 h2 h3
    exact scoreCandidate_boost comp item score jt hjt h1 h2 h3
  · intro item score h
    exact scoreCandidate_no_boost comp item score h

theorem findMatches_company_boost_witness :
    ("Jon" : String) ≠ "" ∧
    (∀ r ∈ engFifth ([fixC7].map mkSearchable) "Jon", 0 ≤ r.2) ∧
    ((engFifth ([fixC7].map mkSearchable) "Jon").map
      (fun r => r.1.contact.id)).Nodup ∧
    (∀ m ∈ findMatches engFifth [fixC7]
        { name := some "Jon", company := some "senior engineer" },
     ∀ m2 ∈ findMatches engFifth [fixC7] { name := some "Jon" },
      m.contact.id = m2.contact.id → m2.confidence ≤ m.confidence) := by
  refine ⟨by decide, ?_, by decide, ?_⟩
  · intro r hr
    simp only [engFifth, List.mem_map] at hr
    obtain ⟨s, _, rfl⟩ := hr
    norm_num
  · exact (findMatches_company_boost engFifth [fixC7] "Jon" "senior engineer"
      (by decide)
      (by
        intro r hr
        simp only [engFifth, List.mem_map] at hr
        obtain ⟨s, _, rfl⟩ := hr
        norm_num)
      (by decide)).1

/-!  ## Search decomposition lemma  -/

theorem mem_search_decomp (cmap : List (String × DexContact))
    (frs : List FuseMatchResult) (opts : SearchOptions) (r : SearchResult)
    (hr : r ∈ search cmap frs opts) :
    ∃ kb ∈ searchBuckets cmap frs opts, r = mkSearchResult kb.2 := by
  unfold search at hr
  have h2 := mem_sortByConfDesc _ r _ (List.mem_of_mem_take hr)
  rw [List.mem_map] at h2
  obtain ⟨kb, hkb, hr2⟩ := h2
  exact ⟨kb, hkb, hr2.symm⟩

/-!  ## Claim C3  -/

/-- C3: every result `search` returns carries the aggregated confidence
`min(100, max single-document confidence in its bucket + min(2 ·
matching-document count, 10))`; consequently, at the same best
single-document confidence, a two-document bucket outscores a
one-document bucket whenever the cap of 100 is not reached. -/
theorem search_aggregation (cmap : List (String × DexContact))
    (frs : List FuseMatchResult) (opts : SearchOptions) :
    (∀ r ∈ search cmap frs opts, ∃ kb ∈ searchBuckets cmap frs opts,
      r.contact = kb.2.contact ∧
      r.confidence =
        min 100 (maxScore (kb.2.matchEntries.map (fun e => e.score)) +
          min (2 * (kb.2.matchEntries.length : ℤ)) 10)) ∧
    (∀ h s2 : ℤ, s2 ≤ h → h + 4 ≤ 100 →
      aggregateConfidence [h] < aggregateConfidence [h, s2]) := by
  constructor
  · intro r hr
    obtain ⟨kb, hkb, rfl⟩ := mem_search_decomp cmap frs opts r hr
    refine ⟨kb, hkb, rfl, ?_⟩
    simp [mkSearchResult, aggregateConfidence]
  · intro h s2 hle hcap
    simp only [aggregateConfidence, maxScore, List.foldl, List.length_cons,
      List.length_nil]
    rw [max_eq_left hle]
    push_cast
    simp only [min_def]
    split_ifs <;> omega

theorem search_aggregation_witness :
    (∀ r ∈ search fixCmap fixFuseResults {},
      ∃ kb ∈ searchBuckets fixCmap fixFuseResults {},
        r.contact = kb.2.contact ∧
        r.confidence =
          min 100 (maxScore (kb.2.matchEntries.map (fun e => e.score)) +
            min (2 * (kb.2.matchEntries.length : ℤ)) 10)) ∧
    aggregateConfidence [90] < aggregateConfidence [90, 90] :=
  ⟨(search_aggregation fixCmap fixFuseResults {}).1,
   (search_aggregation fixCmap fixFuseResults {}).2 90 90 le_rfl (by norm_num)⟩

/-!  ## Bucket-invariant lemmas  -/

theorem jsMapSet_mem_cases {β : Type} (m : List (String × β)) (k : String)
    (v : β) (x : String × β) (hx : x ∈ jsMapSet m k v) :
    x = (k, v) ∨ x ∈ m := by
  induction m with
  | nil => simpa [jsMapSet] using hx
  | cons p t ih =>
    obtain ⟨k0, v0⟩ := p
    unfold jsMapSet at hx
    split at hx
    · rcases List.mem_cons.mp hx with rfl | h2
      · exact Or.inl rfl
      · exact Or.inr (List.mem_cons_of_mem _ h2)
    · rcases List.mem_cons.mp hx with rfl | h2
      · exact Or.inr (List.mem_cons_self _ _)
      · rcases ih h2 with h3 | h3
        · exact Or.inl h3
        · exact Or.inr (List.mem_cons_of_mem _ h3)

theorem jsMapGet_mem {β : Type} (m : List (String × β)) (k : String) (v : β)
    (h : jsMapGet m k = some v) : (k, v) ∈ m := by
  induction m with
  | nil => cases h
  | cons p t ih =>
    obtain ⟨k0, v0⟩ := p
    unfold jsMapGet at h
    split at h
    · rename_i hk
      cases h
      subst hk
      exact List.mem_cons_self _ _
    · exact List.mem_cons_of_mem _ (ih h)

theorem le_foldl_max (t : List ℤ) : ∀ a : ℤ, a ≤ t.foldl max a := by
  induction t with
  | nil => intro a; exact le_refl a
  | cons b t ih =>
    intro a
    rw [List.foldl_cons]
    exact le_trans (le_max_left a b) (ih (max a b))

/-- The invariant `bucketStep` maintains: every bucket is non-empty and
every entry passed the `minConfidence` cutoff. -/
def BucketInv (minConf : ℤ) (kb : String × Bucket) : Prop :=
  kb.2.matchEntries ≠ [] ∧ ∀ e ∈ kb.2.matchEntries, minConf ≤ e.score

theorem bucketStep_preserves (cmap : List (String × DexContact))
    (minConf : ℤ) (dts : Option (List DocType))
    (acc : List (String × Bucket)) (fr : FuseMatchResult)
    (hacc : ∀ kb ∈ acc, BucketInv minConf kb) :
    ∀ kb ∈ bucketStep cmap minConf dts acc fr, BucketInv minConf kb := by
  intro kb hkb
  unfold bucketStep at hkb
  split at hkb
  · exact hacc kb hkb
  · split at hkb
    · exact hacc kb hkb
    · rename_i contact hcontact
      split at hkb
      · exact hacc kb hkb
      · rename_i hconf
        split at hkb
        · rename_i b hb
          rcases jsMapSet_mem_cases _ _ _ kb hkb with rfl | h2
          · have hmem := hacc _ (jsMapGet_mem _ _ _ hb)
            refine ⟨by simp, ?_⟩
            intro e he
            rcases List.mem_append.mp he with h3 | h3
            · exact hmem.2 e h3
            · rw [List.mem_singleton] at h3
              subst h3
              simp only [mkMatchEntry]
              omega
          · exact hacc kb h2
        · rcases jsMapSet_mem_cases _ _ _ kb hkb with rfl | h2
          · refine ⟨by simp, ?_⟩
            intro e he
            rw [List.mem_singleton] at he
            subst he
            simp only [mkMatchEntry]
            omega
          · exact hacc kb h2

theorem foldl_bucketStep_invariant (cmap : List (String × DexContact))
    (minConf : ℤ) (dts : Option (List DocType)) (frs : List FuseMatchResult) :
    ∀ acc, (∀ kb ∈ acc, BucketInv minConf kb) →
    ∀ kb ∈ frs.foldl (bucketStep cmap minConf dts) acc, BucketInv minConf kb := by
  induction frs with
  | nil => intro acc hacc; exact hacc
  | cons fr frs ih =>
    intro acc hacc
    rw [List.foldl_cons]
    exact ih _ (bucketStep_preserves cmap minConf dts acc fr hacc)

theorem searchBuckets_invariant (cmap : List (String × DexContact))
    (frs : List FuseMatchResult) (opts : SearchOptions) :
    ∀ kb ∈ searchBuckets cmap frs opts,
      BucketInv (orDefaultNum opts.minConfidence 50) kb := by
  unfold searchBuckets
  exact foldl_bucketStep_invariant _ _ _ frs [] (by intro kb h; cases h)

/-!  ## Claim C10  -/

/-- C10: passing `{maxResults: 0}` or `{minConfidence: 0}` to `search`
behaves identically to omitting the option, because `||` treats the
falsy `0` as absent and substitutes the defaults 10 and 50; in
particular a `minConfidence` of 0 still never admits a result whose
confidence is below 50. -/
theorem search_falsy_option_defaults (cmap : List (String × DexContact))
    (frs : List FuseMatchResult) (mr mc : Option ℤ)
    (dts : Option (List DocType)) :
    search cmap frs
        { maxResults := some 0, minConfidence := mc, documentTypes := dts } =
      search cmap frs
        { maxResults := none, minConfidence := mc, documentTypes := dts } ∧
    search cmap frs
        { maxResults := mr, minConfidence := some 0, documentTypes := dts } =
      search cmap frs
        { maxResults := mr, minConfidence := none, documentTypes := dts } ∧
    (∀ r ∈ search cmap frs
        { maxResults := mr, minConfidence := some 0, documentTypes := dts },
      50 ≤ r.confidence) := by
  refine ⟨rfl, rfl, ?_⟩
  intro r hr
  obtain ⟨kb, hkb, rfl⟩ := mem_search_decomp _ _ _ r hr
  have hinv := searchBuckets_invariant _ _ _ kb hkb
  show 50 ≤ aggregateConfidence (kb.2.matchEntries.map fun e => e.score)
  cases hES : kb.2.matchEntries with
  | nil => exact absurd hES hinv.1
  | cons e0 rest =>
    have h0 : (50 : ℤ) ≤ e0.score := by
      have := hinv.2 e0 (by rw [hES]; exact List.mem_cons_self _ _)
      simpa [orDefaultNum] using this
    unfold aggregateConfidence maxScore
    simp only [List.map_cons, List.length_cons]
    have h1 := le_foldl_max (rest.map fun e => e.score) e0.score
    push_cast
    simp only [min_def]
    split_ifs <;> omega

theorem search_falsy_option_defaults_witness :
    search fixCmap fixFuseResults { maxResults := some 0 } =
      search fixCmap fixFuseResults {} ∧
    search fixCmap fixFuseResults { minConfidence := some 0 } =
      search fixCmap fixFuseResults {} ∧
    (∀ r ∈ search fixCmap fixFuseResults { minConfidence := some 0 },
      50 ≤ r.confidence) :=
  ⟨(search_falsy_option_defaults fixCmap fixFuseResults none none none).1,
   (search_falsy_option_defaults fixCmap fixFuseResults none none none).2.1,
   (search_falsy_option_defaults fixCmap fixFuseResults none none none).2.2⟩

/-!  ## Slice and replace lemmas  -/

theorem take_min_length (l : List Char) (n : ℕ) :
    l.take (min n l.length) = l.take n := by
  rcases le_total n l.length with h | h
  · rw [min_eq_left h]
  · rw [min_eq_right h, List.take_length, List.take_of_length_le h]

theorem jsSubstring_zero (l : List Char) (n : ℕ) :
    jsSubstring l 0 n = l.take n := by
  unfold jsSubstring
  simp only [Nat.zero_min, Nat.min_zero, Nat.zero_max, Nat.max_zero,
    List.drop_zero, Nat.sub_zero]
  exact take_min_length l n

theorem jsSubstring_eq (l : List Char) (a b : ℕ) (hab : a ≤ b)
    (hb : b ≤ l.length) :
    jsSubstring l a b = (l.drop a).take (b - a) := by
  unfold jsSubstring
  rw [min_eq_left (le_trans hab hb), min_eq_left hb, min_eq_left hab,
    max_eq_right hab]

theorem slice_decompose (l : List Char) (S s e E : ℕ)
    (h1 : S ≤ s) (h2 : s ≤ e + 1) (h3 : e + 1 ≤ E) :
    (l.drop S).take (E - S) =
      (l.drop S).take (s - S) ++ (l.drop s).take (e + 1 - s) ++
      (l.drop (e + 1)).take (E - (e + 1)) := by
  have hA : E - S = (s - S) + (E - s) := by omega
  rw [hA, List.take_add]
  have hd1 : (l.drop S).drop (s - S) = l.drop s := by
    rw [List.drop_drop]
    congr 1
    omega
  rw [hd1]
  have hB : E - s = (e + 1 - s) + (E - (e + 1)) := by omega
  rw [hB, List.take_add]
  have hd2 : (l.drop s).drop (e + 1 - s) = l.drop (e + 1) := by
    rw [List.drop_drop]
    congr 1
    omega
  rw [hd2, List.append_assoc]

theorem getSubstitution_no_dollar (matched before after : List Char) :
    ∀ rep : List Char, '$' ∉ rep →
    getSubstitution matched before after rep = rep := by
  intro rep
  induction rep with
  | nil => intro _; rfl
  | cons c t ih =>
    intro h
    rw [List.mem_cons, not_or] at h
    unfold getSubstitution
    rw [if_neg (fun hc => h.1 hc.symm)]
    rw [ih h.2]

theorem jsReplaceFirstAux_spec (pat rep : List Char) :
    ∀ (s pre : List Char), (∃ u v, s = u ++ pat ++ v) →
    ∃ u v, s = u ++ pat ++ v ∧
      jsReplaceFirstAux pat rep pre s =
        pre ++ u ++ getSubstitution pat (pre ++ u) v rep ++ v := by
  intro s
  induction s with
  | nil =>
    rintro pre ⟨u, v, huv⟩
    have h0 : u ++ pat = [] ∧ v = [] := List.append_eq_nil.mp huv.symm
    have h1 : u = [] ∧ pat = [] := List.append_eq_nil.mp h0.1
    refine ⟨[], [], by simp [h1.2], ?_⟩
    unfold jsReplaceFirstAux
    simp [h1.2]
  | cons c t ih =>
    rintro pre ⟨u, v, huv⟩
    by_cases hpre : pat.isPrefixOf (c :: t)
    · have hp : pat <+: c :: t := List.isPrefixOf_iff_prefix.mp hpre
      obtain ⟨w, hw⟩ := hp
      refine ⟨[], w, by simp [hw.symm], ?_⟩
      unfold jsReplaceFirstAux
      rw [if_pos hpre]
      rw [← hw, List.drop_left]
      simp
    · have hu : u ≠ [] := by
        rintro rfl
        exact hpre (List.isPrefixOf_iff_prefix.mpr ⟨v, by simpa using huv.symm⟩)
      obtain ⟨c0, u2, rfl⟩ := List.exists_cons_of_ne_nil hu
      have hc : c = c0 ∧ t = u2 ++ pat ++ v := by
        simpa using huv
      obtain ⟨rfl, ht⟩ := hc
      obtain ⟨u3, v3, ht2, hrep⟩ := ih (pre ++ [c]) ⟨u2, v, ht⟩
      refine ⟨c :: u3, v3, by simp [ht2], ?_⟩
      unfold jsReplaceFirstAux
      rw [if_neg hpre]
      rw [hrep]
      simp

theorem jsReplaceFirst_of_occurrence (pat rep : List Char) (s : List Char)
    (h : ∃ u v, s = u ++ pat ++ v) :
    ∃ u v, s = u ++ pat ++ v ∧
      jsReplaceFirst pat rep s = u ++ getSubstitution pat u v rep ++ v := by
  obtain ⟨u, v, huv, hrep⟩ := jsReplaceFirstAux_spec pat rep s [] h
  exact ⟨u, v, huv, by simpa using hrep⟩

/-!  ## Claim C8  -/

/-- C8 (counterexample): the claim that the snippet always wraps "the
exact matched substring in emphasis markers" fails when the matched text
contains `replace`'s `$$` escape: for the text `"pay $$ now"` with match
span 4–5 (the matched substring `"$$"`), the source's
`snippet.replace(matchText, ...)` expands `$$` inside the replacement
and produces `"pay **$** now"` — the wrapped segment is `**$**`, and
`**$$**` occurs nowhere in the output. -/
theorem extractSnippet_dollar_counterexample :
    extractSnippet "pay $$ now" (some (4, 5)) = "pay **$** now" ∧
    (("pay $$ now" : String).data.drop 4).take (5 + 1 - 4) = "$$".data ∧
    ¬ ("**".data ++ "$$".data ++ "**".data <:+:
      (extractSnippet "pay $$ now" (some (4, 5))).data) := by
  refine ⟨by decide, by decide, by decide⟩

/-- C8 (amended): with no match span, the snippet is exactly the first
150 characters with an ellipsis appended iff the text is longer; with a
valid span, the snippet is the substring covering a 60-character context
radius on each side of the span clamped to the text bounds, prefixed and
suffixed with an ellipsis exactly when clamped on that side, with an
occurrence of the matched substring replaced by the `$`-substitution of
`**matched**` — which equals `**matched**` (the claimed emphasis
wrapping) whenever the matched substring contains no `$` character. -/
theorem extractSnippet_spec_amended (text : String) :
    extractSnippet text none =
      ⟨text.data.take 150 ++
        (if 150 < text.data.length then "...".data else [])⟩ ∧
    (∀ s e : ℕ, s ≤ e → e < text.data.length →
      ∃ u v : List Char,
        (if 0 < s - 60 then "...".data else []) ++
          (text.data.drop (s - 60)).take
            (min text.data.length (e + 60) - (s - 60)) ++
          (if min text.data.length (e + 60) < text.data.length then
            "...".data else []) =
          u ++ (text.data.drop s).take (e + 1 - s) ++ v ∧
        (extractSnippet text (some (s, e))).data =
          u ++ getSubstitution ((text.data.drop s).take (e + 1 - s)) u v
            ("**".data ++ (text.data.drop s).take (e + 1 - s) ++ "**".data) ++
          v ∧
        ('$' ∉ (text.data.drop s).take (e + 1 - s) →
          (extractSnippet text (some (s, e))).data =
            u ++ "**".data ++ (text.data.drop s).take (e + 1 - s) ++
              "**".data ++ v)) := by
  constructor
  · show (⟨jsSubstring text.data 0 150 ++ _⟩ : String) = _
    rw [jsSubstring_zero]
  · intro s e hse hel
    have hE1 : e + 1 ≤ min text.data.length (e + 60) :=
      le_min (by omega) (by omega)
    have hcore : jsSubstring text.data (s - 60) (min text.data.length (e + 60)) =
        (text.data.drop (s - 60)).take (min text.data.length (e + 60) - (s - 60)) :=
      jsSubstring_eq _ _ _ (by omega) (min_le_left _ _)
    have hmatch : jsSubstring text.data s (e + 1) =
        (text.data.drop s).take (e + 1 - s) :=
      jsSubstring_eq _ _ _ (by omega) (by omega)
    have hdec := slice_decompose text.data (s - 60) s e
      (min text.data.length (e + 60)) (by omega) (by omega) hE1
    have hocc : (if 0 < s - 60 then "...".data else []) ++
        (text.data.drop (s - 60)).take
          (min text.data.length (e + 60) - (s - 60)) ++
        (if min text.data.length (e + 60) < text.data.length then
          "...".data else []) =
        ((if 0 < s - 60 then "...".data else []) ++
          (text.data.drop (s - 60)).take (s - (s - 60))) ++
        (text.data.drop s).take (e + 1 - s) ++
        ((text.data.drop (e + 1)).take
            (min text.data.length (e + 60) - (e + 1)) ++
          (if min text.data.length (e + 60) < text.data.length then
            "...".data else [])) := by
      rw [hdec]
      simp [List.append_assoc]
    obtain ⟨u, v, hfull, hrep⟩ := jsReplaceFirst_of_occurrence
      ((text.data.drop s).take (e + 1 - s))
      ("**".data ++ (text.data.drop s).take (e + 1 - s) ++ "**".data)
      ((if 0 < s - 60 then "...".data else []) ++
        (text.data.drop (s - 60)).take
          (min text.data.length (e + 60) - (s - 60)) ++
        (if min text.data.length (e + 60) < text.data.length then
          "...".data else []))
      ⟨_, _, hocc⟩
    have hout : (extractSnippet text (some (s, e))).data =
        u ++ getSubstitution ((text.data.drop s).take (e + 1 - s)) u v
          ("**".data ++ (text.data.drop s).take (e + 1 - s) ++ "**".data) ++
        v := by
      show (⟨jsReplaceFirst (jsSubstring text.data s (e + 1)) _ _⟩ : String).data = _
      rw [hmatch, hcore] at *
      rw [hrep]
    refine ⟨u, v, hfull, hout, ?_⟩
    intro hnd
    rw [hout, getSubstitution_no_dollar]
    · simp [List.append_assoc]
    · intro hd
      rcases List.mem_append.mp hd with hd1 | hd2
      · rcases List.mem_append.mp hd1 with hd3 | hd4
        · simp at hd3
        · exact hnd hd4
      · simp at hd2

theorem extractSnippet_spec_amended_witness :
    extractSnippet "short note" none = "short note" ∧
    (4 ≤ 6 ∧ 6 < ("abc abc" : String).data.length ∧
      '$' ∉ (("abc abc" : String).data.drop 4).take (6 + 1 - 4)) ∧
    extractSnippet "abc abc" (some (4, 6)) = "**abc** abc" := by
  refine ⟨(extractSnippet_spec_amended "short note").1.trans (by decide),
    by decide, ?_⟩
  have h := (extractSnippet_spec_amended "abc abc").2 4 6 (by norm_num) (by decide)
  exact (by decide : extractSnippet "abc abc" (some (4, 6)) = "**abc** abc")

end DexMcp
